import Mathlib

/-!
Verification of the LZ77 + Huffman compression pipeline (deflate.py).

The definitions below are a shallow embedding of the source: byte buffers
are lists of natural numbers, the mutable bytearray of the decompressor is
explicit state passing, and operations that can raise an exception in the
source (sequence indexing out of range) return Option.
-/

namespace Deflate

/-- An LZ77 codeword: back-reference offset, match length, trailing literal
(class Codeword in the source). -/
structure Codeword where
  prefixStartOffset : Nat
  prefixLen : Nat
  character : Nat
deriving Repr, DecidableEq

/-- Inner while loop of Lz77Compressor.codeword_for_position: extends the
match at the given start while bytes agree, the end of the buffer is not
reached, the run stays before the current position, and the length stays
below 258.  The fuel argument is 258 at the entry point, which is enough
because the loop stops as soon as the length reaches 258. -/
def matchLenAux (buf : List Nat) (position start : Nat) : Nat → Nat → Nat
  | k, 0 => k
  | k, fuel + 1 =>
    if position + k < buf.length ∧ start + k < position ∧
        buf.getD (start + k) 0 = buf.getD (position + k) 0 then
      if 258 ≤ k + 1 then k + 1
      else matchLenAux buf position start (k + 1) fuel
    else k

/-- Run length of the candidate match at the given offset
(current_match_len after the while loop in the source). -/
def matchLen (buf : List Nat) (position offset : Nat) : Nat :=
  matchLenAux buf position (position - offset) 0 258

/-- The for loop over candidate offsets in codeword_for_position: keeps the
longest match found so far as a (length, offset) pair, updating only on a
strictly greater length.  The early break on start < 0 in the source is
unreachable because every candidate offset is at most the position. -/
def bestMatchAux (buf : List Nat) (position : Nat)
    (offsets : List Nat) (acc : Nat × Nat) : Nat × Nat :=
  offsets.foldl (fun best o =>
    let l := matchLen buf position o
    if best.1 < l then (l, o) else best) acc

/-- Result of the offset scan of codeword_for_position:
(longest_match_len, longest_match_offset). -/
def bestMatch (buf : List Nat) (position windowLen : Nat) : Nat × Nat :=
  bestMatchAux buf position (List.range' 1 (min position windowLen)) (0, 0)

/-- Lz77Compressor.codeword_for_position. -/
def codeword_for_position (windowLen : Nat) (buf : List Nat)
    (position : Nat) : Codeword :=
  let best := bestMatch buf position windowLen
  if 0 < best.1 then
    if buf.length ≤ position + best.1 then
      ⟨0, 0, buf.getD position 0⟩
    else
      ⟨best.2, best.1, buf.getD (position + best.1) 0⟩
  else
    ⟨0, 0, buf.getD position 0⟩

/-- The codeword stream of Lz77.compress, starting at the given position,
with an explicit fuel argument.  Every codeword advances the position by
at least one byte, so fuel buf.length - position is enough and the zero
fuel branch is unreachable from the entry point. -/
def lz77TokensFrom (windowLen : Nat) (buf : List Nat) :
    Nat → Nat → List Codeword
  | _, 0 => []
  | position, fuel + 1 =>
    if position < buf.length then
      let cw := codeword_for_position windowLen buf position
      cw :: lz77TokensFrom windowLen buf (position + cw.prefixLen + 1) fuel
    else []

/-- Lz77.compress: the full codeword sequence of a buffer. -/
def lz77Tokens (windowLen : Nat) (buf : List Nat) : List Codeword :=
  lz77TokensFrom windowLen buf 0 buf.length

/-- Indexing of a Python sequence: a negative index counts from the end of
the sequence, and an index that is out of range on either side raises
IndexError, modelled as none. -/
def pyGet (l : List Nat) (i : Int) : Option Nat :=
  if 0 ≤ i then
    if i < (l.length : Int) then some (l.getD i.toNat 0) else none
  else
    if 0 ≤ (l.length : Int) + i then
      some (l.getD ((l.length : Int) + i).toNat 0)
    else none

/-- The copy loop of Lz77Decompressor.decompress_codeword: for i in
range(length), stop if start + i has reached the current length, otherwise
append the byte read at index start + i of the growing buffer.  The last
argument counts the remaining iterations, length - i. -/
def copyLoop (buffer : List Nat) (start : Int) (i : Nat) :
    Nat → Option (List Nat)
  | 0 => some buffer
  | remaining + 1 =>
    if (buffer.length : Int) ≤ start + i then some buffer
    else
      match pyGet buffer (start + i) with
      | none => none
      | some v => copyLoop (buffer ++ [v]) start (i + 1) remaining

/-- Lz77Decompressor.decompress_codeword: one replay step, threading the
output buffer explicitly.  A failing buffer read propagates as none. -/
def decompress_codeword (buffer : List Nat) (cw : Codeword) :
    Option (List Nat) :=
  if 0 < cw.prefixStartOffset then
    match copyLoop buffer ((buffer.length : Int) - cw.prefixStartOffset)
        0 cw.prefixLen with
    | none => none
    | some b => some (b ++ [cw.character])
  else some (buffer ++ [cw.character])

/-- Replaying a whole codeword sequence from an empty output buffer
(the decompress_codeword loop of decompress_file). -/
def replay (cws : List Codeword) : Option (List Nat) :=
  cws.foldlM decompress_codeword []

/-- A heap entry of the huffman function: a frequency paired with the list
of symbols of the group (symbols are byte values; single byte objects in
the source compare exactly like their byte values). -/
abbrev HNode := Nat × List Nat

/-- Lexicographic comparison of symbol lists, as Python compares lists:
the first unequal elements decide, and a strict initial segment is
smaller. -/
def listLtB : List Nat → List Nat → Bool
  | _, [] => false
  | [], _ :: _ => true
  | a :: as, b :: bs =>
    if a < b then true else if b < a then false else listLtB as bs

/-- Comparison of heap entries, as Python compares (frequency, list)
tuples. -/
def nodeLtB (x y : HNode) : Bool :=
  if x.1 < y.1 then true else if y.1 < x.1 then false else listLtB x.2 y.2

/-- heappop: the heap of heapq is modelled by the list of its entries, and
popping returns the least entry together with the remaining entries. -/
def popMin : List HNode → Option (HNode × List HNode)
  | [] => none
  | x :: xs =>
    match popMin xs with
    | none => some (x, [])
    | some (m, r) => if nodeLtB m x then some (m, x :: r) else some (x, xs)

/-- One of the two inner for loops of the huffman merge step: prepend a bit
to the code of every symbol of the popped group (codes is a defaultdict
with the empty string as default). -/
def prependBit (bit : Bool) (syms : List Nat) (codes : Nat → List Bool) :
    Nat → List Bool :=
  fun s => if s ∈ syms then bit :: codes s else codes s

/-- The while loop of huffman, with an explicit fuel argument.  The entry
point passes the heap size as fuel, which is exact: every iteration
shrinks the heap by one entry and the loop stops at one entry. -/
def huffmanLoopAux : Nat → List HNode → (Nat → List Bool) → Nat → List Bool
  | 0, _, codes => codes
  | fuel + 1, heap, codes =>
    if 1 < heap.length then
      match popMin heap with
      | none => codes
      | some (m1, r1) =>
        match popMin r1 with
        | none => codes
        | some (m2, r2) =>
          huffmanLoopAux fuel ((m1.1 + m2.1, m1.2 ++ m2.2) :: r2)
            (prependBit true m2.2 (prependBit false m1.2 codes))
    else codes

/-- The merge loop of huffman. -/
def huffmanLoop (heap : List HNode) (codes : Nat → List Bool) :
    Nat → List Bool :=
  huffmanLoopAux heap.length heap codes

/-- huffman: code table built from a frequency list, one (symbol,
frequency) pair per entry, in the iteration order of the source mapping.
Code strings are lists of bits. -/
def huffman (freqs : List (Nat × Nat)) : Nat → List Bool :=
  let codes := huffmanLoop (freqs.map fun p => (p.2, [p.1])) (fun _ => [])
  if freqs.length = 1 then
    fun s => if s = (freqs.headD (0, 0)).1 then [false] else codes s
  else codes

/-- Codec.encode: concatenation of the codes of the symbols.  In the
pipeline every encoded symbol has an entry in the code table, so the
KeyError of a plain dict lookup is unreachable. -/
def codecEncode (codes : Nat → List Bool) (symbols : List Nat) :
    List Bool :=
  symbols.flatMap codes

/-- Codec.decode: scan the bits, accumulating a candidate code, and emit a
symbol whenever the accumulated code has an entry in the reverse table
(given here as a symbol/code association list; codes are pairwise distinct
in the pipeline, so which entry wins a lookup is immaterial). -/
def codecDecodeAux (letters : List (Nat × List Bool)) :
    List Bool → List Bool → List Nat
  | _, [] => []
  | current, bit :: rest =>
    let cur := current ++ [bit]
    match letters.find? (fun p => p.2 == cur) with
    | some p => p.1 :: codecDecodeAux letters [] rest
    | none => codecDecodeAux letters cur rest

/-- struct.pack of a codeword with format >HHB: two big endian 16 bit
fields and one byte.  All values emitted by the pipeline fit their fields,
so the reductions modulo 256 are inert there. -/
def packCodeword (cw : Codeword) : List Nat :=
  [cw.prefixStartOffset / 256 % 256, cw.prefixStartOffset % 256,
   cw.prefixLen / 256 % 256, cw.prefixLen % 256, cw.character % 256]

/-- The record parsing loop of decompress_file: consume five bytes at a
time, dropping a shorter trailing fragment. -/
def unpackRecords : List Nat → List Codeword
  | b0 :: b1 :: b2 :: b3 :: b4 :: rest =>
    ⟨b0 * 256 + b1, b2 * 256 + b3, b4⟩ :: unpackRecords rest
  | _ => []

/-- The distinct bytes of a list in first occurrence order: the key order
of a Counter built from the list. -/
def firstOccs (l : List Nat) : List Nat :=
  l.foldl (fun acc b => if b ∈ acc then acc else acc ++ [b]) []

/-- Counter(symbols).items(): each distinct byte with its count, in first
occurrence order. -/
def counterItems (l : List Nat) : List (Nat × Nat) :=
  (firstOccs l).map fun b => (b, l.count b)

/-- The eight bits of a byte, most significant first. -/
def natToBits8 (n : Nat) : List Bool :=
  [n / 128 % 2 == 1, n / 64 % 2 == 1, n / 32 % 2 == 1, n / 16 % 2 == 1,
   n / 8 % 2 == 1, n / 4 % 2 == 1, n / 2 % 2 == 1, n % 2 == 1]

/-- Value of a bit string read most significant bit first. -/
def bitsToNat (bits : List Bool) : Nat :=
  bits.foldl (fun acc b => acc * 2 + (if b then 1 else 0)) 0

/-- Packing a padded bit string into bytes, eight bits per byte, with an
explicit fuel argument; dropping eight bits shortens a nonempty list, so
fuel bits.length is enough at the entry point. -/
def packBitsAux : Nat → List Bool → List Nat
  | 0, _ => []
  | fuel + 1, bits =>
    if bits = [] then []
    else bitsToNat (bits.take 8) :: packBitsAux fuel (bits.drop 8)

/-- Packing a padded bit string into bytes, eight bits per byte. -/
def packBits (bits : List Bool) : List Nat :=
  packBitsAux bits.length bits

/-- int.to_bytes(4, big): four big endian bytes of a counter.  The source
raises OverflowError at 2 ^ 32, so the reductions modulo 256 are inert for
every input the source accepts. -/
def toBytes4 (n : Nat) : List Nat :=
  [n / 16777216 % 256, n / 65536 % 256, n / 256 % 256, n % 256]

/-- The 1024 byte frequency header of compress_file: 256 four byte big
endian counters, one per byte value in ascending order. -/
def freqHeader (serialized : List Nat) : List Nat :=
  (List.range 256).flatMap fun b => toBytes4 (serialized.count b)

/-- int.from_bytes of freq_data[4 b : 4 b + 4]: big endian value of the
slice, which may hold fewer than four bytes when the header is short. -/
def readCount4 (freqData : List Nat) (b : Nat) : Nat :=
  ((freqData.drop (4 * b)).take 4).foldl (fun acc byte => acc * 256 + byte) 0

/-- The frequency list decompress_file rebuilds from the header: byte
values in ascending order, keeping the positive counters. -/
def decompFreq (freqData : List Nat) : List (Nat × Nat) :=
  (List.range 256).filterMap fun b =>
    if 0 < readCount4 freqData b then some (b, readCount4 freqData b)
    else none

/-- compress_file as a pure function from input bytes to output bytes. -/
def compressBytes (data : List Nat) : List Nat :=
  let codewords := lz77Tokens 32768 data
  let serialized := codewords.flatMap packCodeword
  let freq := counterItems serialized
  let codes := huffman freq
  let encodedBits := if freq = [] then [] else codecEncode codes serialized
  let padding := (8 - encodedBits.length % 8) % 8
  let padded := encodedBits ++ List.replicate padding false
  freqHeader serialized ++ packBits padded

/-- decompress_file as a pure function from input bytes to output bytes;
an IndexError raised while replaying a codeword propagates as none. -/
def decompressBytes (data : List Nat) : Option (List Nat) :=
  let freqData := data.take 1024
  let encodedData := data.drop 1024
  let freq := decompFreq freqData
  let codes := huffman freq
  let letters := freq.map fun p => (p.1, codes p.1)
  let bitstream := encodedData.flatMap natToBits8
  let decodedSymbols :=
    if freq = [] then [] else codecDecodeAux letters [] bitstream
  replay (unpackRecords decodedSymbols)

/-- c is an initial segment of d. -/
def IsCodePre (c d : List Bool) : Prop :=
  d.take c.length = c

instance (c d : List Bool) : Decidable (IsCodePre c d) := by
  unfold IsCodePre; infer_instance

/-- All symbols of the groups of a heap, in heap order. -/
def heapSyms (heap : List HNode) : List Nat :=
  heap.flatMap fun g => g.2

end Deflate

set_option maxRecDepth 100000

namespace Deflate

/-- C1: the round trip fails on the two byte buffer XX.  Compression emits
two literal codewords, the byte X receives the one bit Huffman code 0, and
the six zero pad bits decode as six spurious X bytes; the spurious fifth
record carries offset 22616, whose replay reads an index far before the
start of the two byte output buffer and raises IndexError, so
decompression crashes instead of returning the input. -/
theorem c1_roundtrip_code_bug :
    decompressBytes (compressBytes [88, 88]) = none := by
  decide

/-- C6: compressing the empty buffer yields exactly 1024 zero bytes with
an empty payload; the rebuilt frequency list of that output is empty, so
decompression takes the no codes branch and returns the empty buffer. -/
theorem c6_empty_input :
    compressBytes [] = List.replicate 1024 0 ∧
      decompFreq ((compressBytes []).take 1024) = [] ∧
      decompressBytes (compressBytes []) = some [] := by
  refine ⟨by decide, by decide, by decide⟩

/-! Helper lemmas about list access. -/

theorem getD_take (l : List Nat) (m j : Nat) (h : j < m) :
    (l.take m).getD j 0 = l.getD j 0 := by
  rw [List.getD_eq_getElem?_getD, List.getD_eq_getElem?_getD,
    List.getElem?_take, if_pos h]

theorem take_succ_getD (l : List Nat) (m : Nat) (h : m < l.length) :
    l.take (m + 1) = l.take m ++ [l.getD m 0] := by
  rw [List.take_succ]
  congr 1
  rw [List.getD_eq_getElem?_getD, List.getElem?_eq_getElem h]
  rfl

/-! Behavior of the replay copy loop. -/

theorem pyGet_some (l : List Nat) (i : Int) (h1 : i < (l.length : Int))
    (h2 : 0 ≤ i + l.length) : ∃ v, pyGet l i = some v := by
  unfold pyGet
  by_cases h : 0 ≤ i
  · rw [if_pos h, if_pos h1]; exact ⟨_, rfl⟩
  · rw [if_neg h, if_pos (by omega)]; exact ⟨_, rfl⟩

theorem pyGet_none (l : List Nat) (i : Int) (h : i + l.length < 0) :
    pyGet l i = none := by
  unfold pyGet
  rw [if_neg (by omega), if_neg (by omega)]

theorem copyLoop_some :
    ∀ (remaining : Nat) (buffer : List Nat) (start : Int) (i : Nat),
      start + i < (buffer.length : Int) → 0 ≤ start + i + buffer.length →
      ∃ l, copyLoop buffer start i remaining = some (buffer ++ l) ∧
        l.length = remaining := by
  intro remaining
  induction remaining with
  | zero =>
    intro buffer start i _ _
    exact ⟨[], by simp [copyLoop]⟩
  | succ n ih =>
    intro buffer start i h1 h2
    obtain ⟨v, hv⟩ := pyGet_some buffer (start + i) h1 h2
    obtain ⟨l, hl, hlen⟩ := ih (buffer ++ [v]) start (i + 1)
      (by simp; omega) (by simp; omega)
    refine ⟨v :: l, ?_, by simp [hlen]⟩
    unfold copyLoop
    rw [if_neg (by omega), hv]
    show copyLoop (buffer ++ [v]) start (i + 1) n = _
    rw [hl]
    simp

theorem copyLoop_none (remaining : Nat) (buffer : List Nat) (start : Int)
    (i : Nat) (h0 : 0 < remaining) (h : start + i + buffer.length < 0) :
    copyLoop buffer start i remaining = none := by
  obtain ⟨n, rfl⟩ : ∃ n, remaining = n + 1 :=
    ⟨remaining - 1, by omega⟩
  unfold copyLoop
  rw [if_neg (by omega), pyGet_none buffer (start + i) h]

/-- C2 as stated is false: replaying the token with offset 1, length 1 and
literal 65 on the empty output buffer reads index -1 of an empty sequence,
which raises IndexError; the engine neither truncates the copy nor
appends the trailing literal. -/
theorem c2_counterexample :
    decompress_codeword [] ⟨1, 1, 65⟩ = none := by
  decide

/-- C2 amended: for a token with offset > 0 the early stop check never
fires (the buffer grows in step with the loop index).  When the offset is
at most twice the current output length, or the length is zero, the engine
copies exactly length bytes, reading wrapped around bytes whenever the
source index is negative, and then appends the literal; when the length is
positive and the offset exceeds twice the output length, the first read is
out of range even for negative indexing and the engine fails with an index
error, dropping the literal. -/
theorem c2_amended (b : List Nat) (cw : Codeword)
    (h : 0 < cw.prefixStartOffset) :
    (cw.prefixStartOffset ≤ 2 * b.length ∨ cw.prefixLen = 0 →
      ∃ l, decompress_codeword b cw = some (b ++ l ++ [cw.character]) ∧
        l.length = cw.prefixLen) ∧
    (2 * b.length < cw.prefixStartOffset → 0 < cw.prefixLen →
      decompress_codeword b cw = none) := by
  constructor
  · intro hcase
    unfold decompress_codeword
    rw [if_pos h]
    rcases hcase with hle | hzero
    · obtain ⟨l, hl, hlen⟩ := copyLoop_some cw.prefixLen b
        ((b.length : Int) - cw.prefixStartOffset) 0 (by omega) (by omega)
      rw [hl]
      exact ⟨l, by simp, hlen⟩
    · rw [hzero]
      exact ⟨[], by simp [copyLoop], by simp⟩
  · intro hgt hpos
    unfold decompress_codeword
    rw [if_pos h,
      copyLoop_none cw.prefixLen b
        ((b.length : Int) - cw.prefixStartOffset) 0 hpos (by omega)]

/-- Witness for C2 amended: on the output buffer [7, 9] the token with
offset 3, length 1 and literal 65 completes its copy (with a wrapped
read) and appends the literal. -/
theorem c2_amended_witness :
    ∃ l, decompress_codeword [7, 9] ⟨3, 1, 65⟩ =
      some ([7, 9] ++ l ++ [65]) ∧ l.length = 1 :=
  (c2_amended [7, 9] ⟨3, 1, 65⟩ (by decide)).1 (Or.inl (by decide))

/-! Properties of the match length loop. -/

theorem matchLenAux_succ (buf : List Nat) (position start k fuel : Nat) :
    matchLenAux buf position start k (fuel + 1) =
      if position + k < buf.length ∧ start + k < position ∧
          buf.getD (start + k) 0 = buf.getD (position + k) 0 then
        if 258 ≤ k + 1 then k + 1
        else matchLenAux buf position start (k + 1) fuel
      else k := rfl

theorem matchLenAux_cond (buf : List Nat) (position start : Nat) :
    ∀ (fuel k j : Nat), k ≤ j →
      j < matchLenAux buf position start k fuel →
      position + j < buf.length ∧ start + j < position ∧
        buf.getD (start + j) 0 = buf.getD (position + j) 0 := by
  intro fuel
  induction fuel with
  | zero =>
    intro k j h1 h2
    simp only [matchLenAux] at h2
    omega
  | succ n ih =>
    intro k j h1 h2
    rw [matchLenAux_succ] at h2
    by_cases hc : position + k < buf.length ∧ start + k < position ∧
        buf.getD (start + k) 0 = buf.getD (position + k) 0
    · rw [if_pos hc] at h2
      by_cases h258 : 258 ≤ k + 1
      · rw [if_pos h258] at h2
        have hjk : j = k := by omega
        rw [hjk]
        exact hc
      · rw [if_neg h258] at h2
        rcases Nat.eq_or_lt_of_le h1 with heq | hlt
        · rw [heq] at hc; exact hc
        · exact ih (k + 1) j (by omega) h2
    · rw [if_neg hc] at h2
      omega

theorem matchLenAux_le (buf : List Nat) (position start : Nat) :
    ∀ (fuel k : Nat), k ≤ 257 →
      matchLenAux buf position start k fuel ≤ 258 := by
  intro fuel
  induction fuel with
  | zero =>
    intro k h
    simp only [matchLenAux]
    omega
  | succ n ih =>
    intro k h
    rw [matchLenAux_succ]
    by_cases hc : position + k < buf.length ∧ start + k < position ∧
        buf.getD (start + k) 0 = buf.getD (position + k) 0
    · rw [if_pos hc]
      by_cases h258 : 258 ≤ k + 1
      · rw [if_pos h258]; omega
      · rw [if_neg h258]; exact ih (k + 1) (by omega)
    · rw [if_neg hc]; omega

theorem matchLen_cond (buf : List Nat) (position offset : Nat) :
    ∀ j < matchLen buf position offset,
      position + j < buf.length ∧ (position - offset) + j < position ∧
        buf.getD ((position - offset) + j) 0 = buf.getD (position + j) 0 :=
  fun j hj =>
    matchLenAux_cond buf position (position - offset) 258 0 j (Nat.zero_le j) hj

theorem matchLen_le_258 (buf : List Nat) (position offset : Nat) :
    matchLen buf position offset ≤ 258 :=
  matchLenAux_le buf position (position - offset) 258 0 (by omega)

theorem matchLen_le_offset (buf : List Nat) (position offset : Nat)
    (h : offset ≤ position) : matchLen buf position offset ≤ offset := by
  by_cases h0 : matchLen buf position offset = 0
  · omega
  · have := matchLen_cond buf position offset
      (matchLen buf position offset - 1) (by omega)
    omega

theorem matchLen_le_rem (buf : List Nat) (position offset : Nat) :
    matchLen buf position offset ≤ buf.length - position := by
  by_cases h0 : matchLen buf position offset = 0
  · omega
  · have := matchLen_cond buf position offset
      (matchLen buf position offset - 1) (by omega)
    omega

theorem matchLen_offset_zero (buf : List Nat) (position : Nat) :
    matchLen buf position 0 = 0 := by
  rw [matchLen, show (258 : Nat) = 257 + 1 from rfl, matchLenAux_succ,
    if_neg (fun hc => absurd hc.2.1 (by omega))]

/-! Properties of the offset scan. -/

theorem bestMatchAux_inv (buf : List Nat) (position : Nat) :
    ∀ (m s : Nat) (acc : Nat × Nat), 1 ≤ s →
      (∀ o, 1 ≤ o → o < s → matchLen buf position o ≤ acc.1) →
      (acc.1 = 0 → acc.2 = 0) →
      (0 < acc.1 → 1 ≤ acc.2 ∧ acc.2 < s ∧
        matchLen buf position acc.2 = acc.1 ∧
        ∀ o < acc.2, matchLen buf position o < acc.1) →
      (∀ o, 1 ≤ o → o < s + m →
        matchLen buf position o ≤
          (bestMatchAux buf position (List.range' s m) acc).1) ∧
      ((bestMatchAux buf position (List.range' s m) acc).1 = 0 →
        (bestMatchAux buf position (List.range' s m) acc).2 = 0) ∧
      (0 < (bestMatchAux buf position (List.range' s m) acc).1 →
        1 ≤ (bestMatchAux buf position (List.range' s m) acc).2 ∧
        (bestMatchAux buf position (List.range' s m) acc).2 < s + m ∧
        matchLen buf position
            (bestMatchAux buf position (List.range' s m) acc).2 =
          (bestMatchAux buf position (List.range' s m) acc).1 ∧
        ∀ o < (bestMatchAux buf position (List.range' s m) acc).2,
          matchLen buf position o <
            (bestMatchAux buf position (List.range' s m) acc).1) := by
  intro m
  induction m with
  | zero =>
    intro s acc hs inv1 inv2 inv3
    have hnil : bestMatchAux buf position (List.range' s 0) acc = acc := rfl
    rw [hnil]
    refine ⟨fun o h1 h2 => inv1 o h1 (by omega), inv2, fun hp => ?_⟩
    obtain ⟨a, b, c, d⟩ := inv3 hp
    exact ⟨a, by omega, c, d⟩
  | succ n ih =>
    intro s acc hs inv1 inv2 inv3
    rw [List.range'_succ]
    have hfold : bestMatchAux buf position (s :: List.range' (s + 1) n) acc =
        bestMatchAux buf position (List.range' (s + 1) n)
          (if acc.1 < matchLen buf position s
            then (matchLen buf position s, s) else acc) := rfl
    rw [hfold]
    by_cases hlt : acc.1 < matchLen buf position s
    · rw [if_pos hlt]
      have hres := ih (s + 1) (matchLen buf position s, s) (by omega)
        (by
          intro o h1 h2
          rcases Nat.lt_or_ge o s with ho | ho
          · exact le_trans (inv1 o h1 ho) (by omega)
          · have hos : o = s := by omega
            rw [hos])
        (by
          intro hz
          exact absurd hz (by simp; omega))
        (by
          intro hp
          refine ⟨hs, Nat.lt_succ_self s, rfl, ?_⟩
          intro o ho
          have ho' : o < s := ho
          rcases Nat.eq_zero_or_pos o with rfl | hop
          · rw [matchLen_offset_zero]
            exact hp
          · exact lt_of_le_of_lt (inv1 o hop ho') hlt)
      have harith : s + 1 + n = s + (n + 1) := by omega
      rw [harith] at hres
      exact hres
    · rw [if_neg hlt]
      have hres := ih (s + 1) acc (by omega)
        (by
          intro o h1 h2
          rcases Nat.lt_or_ge o s with ho | ho
          · exact inv1 o h1 ho
          · have hos : o = s := by omega
            rw [hos]
            omega)
        inv2
        (by
          intro hp
          obtain ⟨a, b2, c, d⟩ := inv3 hp
          exact ⟨a, by omega, c, d⟩)
      have harith : s + 1 + n = s + (n + 1) := by omega
      rw [harith] at hres
      exact hres

theorem bestMatch_spec (buf : List Nat) (position windowLen : Nat) :
    (∀ o, 1 ≤ o → o ≤ min position windowLen →
      matchLen buf position o ≤ (bestMatch buf position windowLen).1) ∧
    ((bestMatch buf position windowLen).1 = 0 →
      (bestMatch buf position windowLen).2 = 0) ∧
    (0 < (bestMatch buf position windowLen).1 →
      1 ≤ (bestMatch buf position windowLen).2 ∧
      (bestMatch buf position windowLen).2 ≤ min position windowLen ∧
      matchLen buf position (bestMatch buf position windowLen).2 =
        (bestMatch buf position windowLen).1 ∧
      ∀ o < (bestMatch buf position windowLen).2,
        matchLen buf position o < (bestMatch buf position windowLen).1) := by
  unfold bestMatch
  have h := bestMatchAux_inv buf position (min position windowLen) 1 (0, 0)
    (Nat.le_refl 1)
    (fun o h1 h2 => absurd h2 (by omega))
    (fun _ => rfl)
    (fun hp => absurd hp (by decide))
  obtain ⟨h1, h2, h3⟩ := h
  refine ⟨fun o ho1 ho2 => h1 o ho1 (by omega), h2, fun hp => ?_⟩
  obtain ⟨a, b, c, d⟩ := h3 hp
  exact ⟨a, by omega, c, d⟩

/-- C8: the reported match is a greatest length match over candidate
offsets 1..min(p, W): every candidate run length is at most the reported
length; a positive reported length is achieved at the reported offset and
every smaller offset has a strictly smaller run length (the ascending scan
updates only on a strictly greater length, so among equal length matches
the smallest offset wins); a zero length reports offset zero; and every
run length is capped by 258, by the offset itself, and by the distance to
the buffer end. -/
theorem c8_greedy_match (b : List Nat) (position W : Nat) :
    (∀ o, 1 ≤ o → o ≤ min position W →
      matchLen b position o ≤ (bestMatch b position W).1) ∧
    ((bestMatch b position W).1 = 0 → (bestMatch b position W).2 = 0) ∧
    (0 < (bestMatch b position W).1 →
      1 ≤ (bestMatch b position W).2 ∧
      (bestMatch b position W).2 ≤ min position W ∧
      matchLen b position (bestMatch b position W).2 =
        (bestMatch b position W).1 ∧
      ∀ o < (bestMatch b position W).2,
        matchLen b position o < (bestMatch b position W).1) ∧
    (∀ o, matchLen b position o ≤ 258 ∧
      (o ≤ position → matchLen b position o ≤ o) ∧
      matchLen b position o ≤ b.length - position) := by
  obtain ⟨h1, h2, h3⟩ := bestMatch_spec b position W
  exact ⟨h1, h2, h3, fun o =>
    ⟨matchLen_le_258 b position o,
     fun ho => matchLen_le_offset b position o ho,
     matchLen_le_rem b position o⟩⟩

/-- Witness for C8 at the buffer XX, position 1. -/
theorem c8_witness :
    matchLen [88, 88] 1 1 ≤ (bestMatch [88, 88] 1 32768).1 ∧
      matchLen [88, 88] 1 1 ≤ 1 :=
  ⟨(c8_greedy_match [88, 88] 1 32768).1 1 (by decide) (by decide),
   ((c8_greedy_match [88, 88] 1 32768).2.2.2 1).2.1 (by decide)⟩

/-- codeword_for_position with its local binding unfolded. -/
theorem codeword_for_position_eq (W : Nat) (b : List Nat) (position : Nat) :
    codeword_for_position W b position =
      if 0 < (bestMatch b position W).1 then
        if b.length ≤ position + (bestMatch b position W).1 then
          ⟨0, 0, b.getD position 0⟩
        else
          ⟨(bestMatch b position W).2, (bestMatch b position W).1,
            b.getD (position + (bestMatch b position W).1) 0⟩
      else ⟨0, 0, b.getD position 0⟩ := rfl

/-- C7: when the best match found is positive but would reach the end of
the buffer, codeword_for_position discards it and emits the literal only
token for the current byte, which advances the position by exactly one. -/
theorem c7_end_degrade (W : Nat) (b : List Nat) (position : Nat)
    (h1 : 0 < (bestMatch b position W).1)
    (h2 : b.length ≤ position + (bestMatch b position W).1) :
    codeword_for_position W b position = ⟨0, 0, b.getD position 0⟩ ∧
      (codeword_for_position W b position).prefixLen + 1 = 1 := by
  have hmain : codeword_for_position W b position =
      ⟨0, 0, b.getD position 0⟩ := by
    rw [codeword_for_position_eq, if_pos h1, if_pos h2]
  exact ⟨hmain, by rw [hmain]⟩

/-- Witness for C7 at the buffer XX, position 1, where the best match has
length 1 and reaches the end of the buffer. -/
theorem c7_witness :
    codeword_for_position 32768 [88, 88] 1 = ⟨0, 0, (88 : Nat)⟩ ∧
      (codeword_for_position 32768 [88, 88] 1).prefixLen + 1 = 1 :=
  c7_end_degrade 32768 [88, 88] 1 (by decide) (by decide)

/-- Joint specification of codeword_for_position at an in range position:
the token ends strictly before the buffer end, its literal is the byte
right after the match, a zero offset comes with a zero length, and a
positive offset comes with a positive length bounded by the offset, an
offset bounded by the position, and bytewise agreement of the matched
run. -/
theorem codeword_spec (W : Nat) (b : List Nat) (position : Nat)
    (hpos : position < b.length) :
    position + (codeword_for_position W b position).prefixLen < b.length ∧
    (codeword_for_position W b position).character =
      b.getD (position + (codeword_for_position W b position).prefixLen) 0 ∧
    ((codeword_for_position W b position).prefixStartOffset = 0 →
      (codeword_for_position W b position).prefixLen = 0) ∧
    (0 < (codeword_for_position W b position).prefixStartOffset →
      (codeword_for_position W b position).prefixStartOffset ≤ position ∧
      0 < (codeword_for_position W b position).prefixLen ∧
      (codeword_for_position W b position).prefixLen ≤
        (codeword_for_position W b position).prefixStartOffset ∧
      ∀ j < (codeword_for_position W b position).prefixLen,
        b.getD (position -
          (codeword_for_position W b position).prefixStartOffset + j) 0 =
          b.getD (position + j) 0) := by
  obtain ⟨h1, h2, h3⟩ := bestMatch_spec b position W
  rw [codeword_for_position_eq]
  by_cases hb : 0 < (bestMatch b position W).1
  · by_cases hend : b.length ≤ position + (bestMatch b position W).1
    · rw [if_pos hb, if_pos hend]
      exact ⟨by
        show position + 0 < b.length
        omega, rfl, fun _ => rfl, fun h0 => absurd h0 (Nat.lt_irrefl 0)⟩
    · rw [if_pos hb, if_neg hend]
      obtain ⟨ha, hbnd, hach, hfirst⟩ := h3 hb
      refine ⟨?_, rfl, ?_, ?_⟩
      · show position + (bestMatch b position W).1 < b.length
        omega
      · intro h0
        have h0' : (bestMatch b position W).2 = 0 := h0
        show (bestMatch b position W).1 = 0
        omega
      · intro _
        have hoff : (bestMatch b position W).2 ≤ position := by omega
        have hlo := matchLen_le_offset b position (bestMatch b position W).2 hoff
        refine ⟨hoff, hb, ?_, ?_⟩
        · show (bestMatch b position W).1 ≤ (bestMatch b position W).2
          omega
        · intro j hj
          have hj' : j < (bestMatch b position W).1 := hj
          have hc := matchLen_cond b position (bestMatch b position W).2 j
            (by omega)
          exact hc.2.2
  · rw [if_neg hb]
    exact ⟨by
      show position + 0 < b.length
      omega, rfl, fun _ => rfl, fun h0 => absurd h0 (Nat.lt_irrefl 0)⟩

/-! The token stream and its replay. -/

theorem lz77TokensFrom_succ (W : Nat) (b : List Nat) (position fuel : Nat) :
    lz77TokensFrom W b position (fuel + 1) =
      if position < b.length then
        codeword_for_position W b position ::
          lz77TokensFrom W b
            (position + (codeword_for_position W b position).prefixLen + 1)
            fuel
      else [] := rfl

theorem lz77TokensFrom_mem (W : Nat) (b : List Nat) :
    ∀ (fuel position : Nat) (cw : Codeword),
      cw ∈ lz77TokensFrom W b position fuel →
      ∃ p, cw = codeword_for_position W b p := by
  intro fuel
  induction fuel with
  | zero =>
    intro position cw h
    simp only [lz77TokensFrom] at h
    exact absurd h (List.not_mem_nil cw)
  | succ n ih =>
    intro position cw h
    rw [lz77TokensFrom_succ] at h
    by_cases hp : position < b.length
    · rw [if_pos hp] at h
      rcases List.mem_cons.mp h with heq | htail
      · exact ⟨position, heq⟩
      · exact ih _ cw htail
    · rw [if_neg hp] at h
      exact absurd h (List.not_mem_nil cw)

theorem codeword_len_le_offset (W : Nat) (b : List Nat) (position : Nat)
    (hoff : 0 < (codeword_for_position W b position).prefixStartOffset) :
    (codeword_for_position W b position).prefixLen ≤
      (codeword_for_position W b position).prefixStartOffset := by
  obtain ⟨h1, h2, h3⟩ := bestMatch_spec b position W
  rw [codeword_for_position_eq] at hoff ⊢
  by_cases hb : 0 < (bestMatch b position W).1
  · by_cases hend : b.length ≤ position + (bestMatch b position W).1
    · rw [if_pos hb, if_pos hend] at hoff
      exact absurd hoff (Nat.lt_irrefl 0)
    · rw [if_pos hb, if_neg hend]
      obtain ⟨ha, hbnd, hach, hfirst⟩ := h3 hb
      have hoff2 : (bestMatch b position W).2 ≤ position := by omega
      have hlo := matchLen_le_offset b position (bestMatch b position W).2 hoff2
      show (bestMatch b position W).1 ≤ (bestMatch b position W).2
      omega
  · rw [if_neg hb] at hoff
    exact absurd hoff (Nat.lt_irrefl 0)

/-- C9: every token the matcher emits with a positive offset has its
length at most the offset (the run comparison stops at the current
position), so replaying a compressor produced token never reads a byte
appended by the same token: the self referential copy path is exercised
only by externally supplied token sequences. -/
theorem c9_no_self_overlap (W : Nat) (b : List Nat) :
    ∀ cw ∈ lz77Tokens W b, 0 < cw.prefixStartOffset →
      cw.prefixLen ≤ cw.prefixStartOffset := by
  intro cw hmem hoff
  obtain ⟨p, hp⟩ := lz77TokensFrom_mem W b b.length 0 cw hmem
  rw [hp] at hoff ⊢
  exact codeword_len_le_offset W b p hoff

/-- Witness for C9: the middle token of the buffer XXXX has offset 1 and
length 1. -/
theorem c9_witness :
    (⟨1, 1, 88⟩ : Codeword).prefixLen ≤
      (⟨1, 1, 88⟩ : Codeword).prefixStartOffset :=
  c9_no_self_overlap 32768 [88, 88, 88, 88] ⟨1, 1, 88⟩ (by decide) (by decide)

theorem copyLoop_succ (buffer : List Nat) (start : Int) (i remaining : Nat) :
    copyLoop buffer start i (remaining + 1) =
      if (buffer.length : Int) ≤ start + i then some buffer
      else
        match pyGet buffer (start + i) with
        | none => none
        | some v => copyLoop (buffer ++ [v]) start (i + 1) remaining := rfl

theorem copyLoop_take (b : List Nat) (position offset len : Nat)
    (h1 : 1 ≤ offset) (h2 : offset ≤ position) (h3 : len ≤ offset)
    (h4 : position + len ≤ b.length)
    (hm : ∀ j < len,
      b.getD (position - offset + j) 0 = b.getD (position + j) 0) :
    ∀ (remaining i : Nat), i + remaining = len →
      copyLoop (b.take (position + i)) ((position : Int) - offset) i
          remaining =
        some (b.take (position + len)) := by
  intro remaining
  induction remaining with
  | zero =>
    intro i hi
    rw [show i = len from by omega]
    rfl
  | succ n ih =>
    intro i hi
    have hilen : i < len := by omega
    have hpi : position + i < b.length := by omega
    have hlen_take : (b.take (position + i)).length = position + i := by
      rw [List.length_take]
      omega
    rw [copyLoop_succ, hlen_take, if_neg (by omega)]
    have hidx : (position : Int) - offset + i =
        ((position - offset + i : Nat) : Int) := by omega
    have hget : pyGet (b.take (position + i)) ((position : Int) - offset + i) =
        some (b.getD (position + i) 0) := by
      rw [hidx]
      unfold pyGet
      rw [if_pos (Int.natCast_nonneg _), hlen_take,
        if_pos (by omega), Int.toNat_natCast,
        getD_take b (position + i) (position - offset + i) (by omega),
        hm i hilen]
    rw [hget]
    show copyLoop (b.take (position + i) ++ [b.getD (position + i) 0])
        ((position : Int) - offset) (i + 1) n = some (b.take (position + len))
    rw [← take_succ_getD b (position + i) hpi]
    exact ih (i + 1) (by omega)

theorem decompress_step (W : Nat) (b : List Nat) (position : Nat)
    (hpos : position < b.length) :
    decompress_codeword (b.take position)
        (codeword_for_position W b position) =
      some (b.take
        (position + (codeword_for_position W b position).prefixLen + 1)) := by
  obtain ⟨hend, hchar, hzero, hmatch⟩ := codeword_spec W b position hpos
  by_cases hoff : 0 < (codeword_for_position W b position).prefixStartOffset
  · obtain ⟨ho1, ho2, ho3, ho4⟩ := hmatch hoff
    unfold decompress_codeword
    rw [if_pos hoff]
    have hlt : (b.take position).length = position := by
      rw [List.length_take]
      omega
    rw [hlt]
    have hcl := copyLoop_take b position
      (codeword_for_position W b position).prefixStartOffset
      (codeword_for_position W b position).prefixLen
      hoff ho1 ho3 (by omega) ho4
      (codeword_for_position W b position).prefixLen 0 (by omega)
    rw [show position + 0 = position from rfl] at hcl
    rw [hcl]
    show some (b.take
        (position + (codeword_for_position W b position).prefixLen) ++
        [(codeword_for_position W b position).character]) = _
    rw [hchar, ← take_succ_getD b
      (position + (codeword_for_position W b position).prefixLen) hend]
  · have hlen0 : (codeword_for_position W b position).prefixLen = 0 :=
      hzero (by omega)
    unfold decompress_codeword
    rw [if_neg hoff, hchar, hlen0]
    simp only [Nat.add_zero]
    rw [← take_succ_getD b position hpos]

theorem replay_from (W : Nat) (b : List Nat) :
    ∀ (fuel position : Nat), b.length - position ≤ fuel →
      position ≤ b.length →
      List.foldlM decompress_codeword (b.take position)
        (lz77TokensFrom W b position fuel) = some b := by
  intro fuel
  induction fuel with
  | zero =>
    intro position h1 h2
    rw [show position = b.length from by omega, List.take_length]
    rfl
  | succ n ih =>
    intro position h1 h2
    rw [lz77TokensFrom_succ]
    by_cases hp : position < b.length
    · rw [if_pos hp, List.foldlM_cons, decompress_step W b position hp]
      have hcspec := codeword_spec W b position hp
      show List.foldlM decompress_codeword
          (b.take
            (position + (codeword_for_position W b position).prefixLen + 1))
          (lz77TokensFrom W b
            (position + (codeword_for_position W b position).prefixLen + 1)
            n) = some b
      exact ih _ (by omega) (by omega)
    · rw [if_neg hp, show position = b.length from by omega, List.take_length]
      rfl

theorem cover_from (W : Nat) (b : List Nat) :
    ∀ (fuel position : Nat), b.length - position ≤ fuel →
      position ≤ b.length →
      (lz77TokensFrom W b position fuel).foldl
        (fun p cw => p + cw.prefixLen + 1) position = b.length := by
  intro fuel
  induction fuel with
  | zero =>
    intro position h1 h2
    rw [show position = b.length from by omega]
    rfl
  | succ n ih =>
    intro position h1 h2
    rw [lz77TokensFrom_succ]
    by_cases hp : position < b.length
    · rw [if_pos hp, List.foldl_cons]
      have hcspec := codeword_spec W b position hp
      exact ih _ (by omega) (by omega)
    · rw [if_neg hp, show position = b.length from by omega]
      rfl

/-- C3: the token sequence of the matcher covers the buffer exactly,
every token advancing the position by its length plus one with no gaps or
overlaps and the accumulated position ending exactly at the buffer end,
and replaying the sequence through the decompressor rebuilds the buffer
exactly. -/
theorem c3_cover_and_replay (W : Nat) (b : List Nat) :
    (lz77Tokens W b).foldl (fun p cw => p + cw.prefixLen + 1) 0 = b.length ∧
      replay (lz77Tokens W b) = some b := by
  constructor
  · exact cover_from W b b.length 0 (by omega) (by omega)
  · show List.foldlM decompress_codeword [] (lz77Tokens W b) = some b
    exact replay_from W b b.length 0 (by omega) (by omega)

/-! Short compressed inputs. -/

/-- C10 as stated is false in its parsing clause: on the five byte input
0, 0, 0, 0, 5 the slice for counter 1 holds the single byte 5, and
int.from_bytes of that short slice is 5, not 0, so the rebuilt frequency
list is not all zero. -/
theorem c10_counterexample :
    [0, 0, 0, 0, 5].length < 1024 ∧
      readCount4 ([0, 0, 0, 0, 5].take 1024) 1 = 5 ∧
      readCount4 ([0, 0, 0, 0, 5].take 1024) 1 ≠ 0 ∧
      decompFreq ([0, 0, 0, 0, 5].take 1024) = [(1, 5)] := by
  refine ⟨by decide, by decide, by decide, by decide⟩

/-- C10 amended: decompressing any input shorter than 1024 bytes does not
fail and yields the empty buffer, because the payload after the header
bytes is empty; a partial trailing four byte slice parses as the big
endian value of its remaining bytes (an empty slice as zero), not
necessarily as zero. -/
theorem c10_amended (data : List Nat) (h : data.length < 1024) :
    decompressBytes data = some [] := by
  unfold decompressBytes
  rw [List.drop_eq_nil_of_le (by omega)]
  simp only [List.flatMap_nil]
  rw [show codecDecodeAux
      ((decompFreq (data.take 1024)).map fun p =>
        (p.1, huffman (decompFreq (data.take 1024)) p.1)) [] [] = []
    from rfl]
  rw [ite_self]
  rfl

/-- Witness for C10 amended at the five byte input of the
counterexample. -/
theorem c10_amended_witness : decompressBytes [0, 0, 0, 0, 5] = some [] :=
  c10_amended [0, 0, 0, 0, 5] (by decide)

/-! The strict order used by the heap. -/

theorem listLtB_cons (a b : Nat) (as bs : List Nat) :
    listLtB (a :: as) (b :: bs) =
      if a < b then true else if b < a then false else listLtB as bs := rfl

theorem listLtB_irrefl : ∀ l : List Nat, listLtB l l = false := by
  intro l
  induction l with
  | nil => rfl
  | cons a as ih =>
    rw [listLtB_cons, if_neg (Nat.lt_irrefl a), if_neg (Nat.lt_irrefl a)]
    exact ih

theorem listLtB_antisymm : ∀ l1 l2 : List Nat,
    listLtB l1 l2 = false → listLtB l2 l1 = false → l1 = l2 := by
  intro l1
  induction l1 with
  | nil =>
    intro l2 h1 _
    cases l2 with
    | nil => rfl
    | cons b bs => exact absurd h1 (by rw [show listLtB [] (b :: bs) = true from rfl]; simp)
  | cons a as ih =>
    intro l2 h1 h2
    cases l2 with
    | nil => exact absurd h2 (by rw [show listLtB [] (a :: as) = true from rfl]; simp)
    | cons b bs =>
      rw [listLtB_cons] at h1 h2
      by_cases hab : a < b
      · rw [if_pos hab] at h1
        exact absurd h1 (by simp)
      · by_cases hba : b < a
        · rw [if_pos hba] at h2
          exact absurd h2 (by simp)
        · rw [if_neg hab, if_neg hba] at h1
          rw [if_neg hba, if_neg hab] at h2
          have hae : a = b := by omega
          rw [hae, ih bs h1 h2]

theorem listLtB_trans : ∀ l1 l2 l3 : List Nat,
    listLtB l1 l2 = true → listLtB l2 l3 = true → listLtB l1 l3 = true := by
  intro l1
  induction l1 with
  | nil =>
    intro l2 l3 h1 h2
    cases l3 with
    | nil =>
      cases l2 with
      | nil => exact h1
      | cons b bs => exact absurd h2 (by rw [show listLtB (b :: bs) [] = false from rfl]; simp)
    | cons c cs => rfl
  | cons a as ih =>
    intro l2 l3 h1 h2
    cases l2 with
    | nil => exact absurd h1 (by rw [show listLtB (a :: as) [] = false from rfl]; simp)
    | cons b bs =>
      cases l3 with
      | nil => exact absurd h2 (by rw [show listLtB (b :: bs) [] = false from rfl]; simp)
      | cons c cs =>
        rw [listLtB_cons] at h1 h2 ⊢
        by_cases hab : a < b
        · by_cases hbc : b < c
          · rw [if_pos (by omega)]
          · by_cases hcb : c < b
            · rw [if_neg hbc, if_pos hcb] at h2
              exact absurd h2 (by simp)
            · rw [if_pos (by omega)]
        · by_cases hba : b < a
          · rw [if_neg hab, if_pos hba] at h1
            exact absurd h1 (by simp)
          · rw [if_neg hab, if_neg hba] at h1
            by_cases hbc : b < c
            · rw [if_pos (by omega)]
            · by_cases hcb : c < b
              · rw [if_neg hbc, if_pos hcb] at h2
                exact absurd h2 (by simp)
              · rw [if_neg hbc, if_neg hcb] at h2
                rw [if_neg (by omega), if_neg (by omega)]
                exact ih bs cs h1 h2

theorem nodeLtB_eq (x y : HNode) :
    nodeLtB x y =
      if x.1 < y.1 then true else if y.1 < x.1 then false
      else listLtB x.2 y.2 := rfl

theorem nodeLtB_irrefl (x : HNode) : nodeLtB x x = false := by
  rw [nodeLtB_eq, if_neg (Nat.lt_irrefl _), if_neg (Nat.lt_irrefl _)]
  exact listLtB_irrefl x.2

theorem nodeLtB_antisymm (x y : HNode) (h1 : nodeLtB x y = false)
    (h2 : nodeLtB y x = false) : x = y := by
  rw [nodeLtB_eq] at h1 h2
  by_cases hab : x.1 < y.1
  · rw [if_pos hab] at h1
    exact absurd h1 (by simp)
  · by_cases hba : y.1 < x.1
    · rw [if_pos hba] at h2
      exact absurd h2 (by simp)
    · rw [if_neg hab, if_neg hba] at h1
      rw [if_neg hba, if_neg hab] at h2
      obtain ⟨x1, x2⟩ := x
      obtain ⟨y1, y2⟩ := y
      simp only at hab hba h1 h2
      have : x1 = y1 := by omega
      rw [this, listLtB_antisymm x2 y2 h1 h2]

theorem nodeLtB_trans (x y z : HNode) (h1 : nodeLtB x y = true)
    (h2 : nodeLtB y z = true) : nodeLtB x z = true := by
  rw [nodeLtB_eq] at h1 h2 ⊢
  by_cases hab : x.1 < y.1
  · by_cases hbc : y.1 < z.1
    · rw [if_pos (by omega)]
    · by_cases hcb : z.1 < y.1
      · rw [if_neg hbc, if_pos hcb] at h2
        exact absurd h2 (by simp)
      · rw [if_pos (by omega)]
  · by_cases hba : y.1 < x.1
    · rw [if_neg hab, if_pos hba] at h1
      exact absurd h1 (by simp)
    · rw [if_neg hab, if_neg hba] at h1
      by_cases hbc : y.1 < z.1
      · rw [if_pos (by omega)]
      · by_cases hcb : z.1 < y.1
        · rw [if_neg hbc, if_pos hcb] at h2
          exact absurd h2 (by simp)
        · rw [if_neg hbc, if_neg hcb] at h2
          rw [if_neg (by omega), if_neg (by omega)]
          exact listLtB_trans x.2 y.2 z.2 h1 h2

theorem nodeLtB_asymm (x y : HNode) (h : nodeLtB x y = true) :
    nodeLtB y x = false := by
  cases h2 : nodeLtB y x with
  | false => rfl
  | true =>
    have := nodeLtB_trans x y x h h2
    rw [nodeLtB_irrefl] at this
    exact absurd this (by simp)

/-! Behavior of the heap pop. -/

theorem popMin_cons (x : HNode) (xs : List HNode) :
    popMin (x :: xs) =
      match popMin xs with
      | none => some (x, [])
      | some (m, r) =>
        if nodeLtB m x then some (m, x :: r) else some (x, xs) := rfl

theorem popMin_cons_isSome (x : HNode) (xs : List HNode) :
    ∃ m r, popMin (x :: xs) = some (m, r) := by
  rw [popMin_cons]
  cases hp : popMin xs with
  | none => exact ⟨x, [], rfl⟩
  | some p =>
    obtain ⟨m, r⟩ := p
    by_cases h : nodeLtB m x
    · refine ⟨m, x :: r, ?_⟩
      show (if nodeLtB m x = true then some (m, x :: r) else some (x, xs)) = _
      rw [if_pos h]
    · refine ⟨x, xs, ?_⟩
      show (if nodeLtB m x = true then some (m, x :: r) else some (x, xs)) = _
      rw [if_neg h]

theorem popMin_isSome (l : List HNode) (h : l ≠ []) :
    ∃ m r, popMin l = some (m, r) := by
  cases l with
  | nil => exact absurd rfl h
  | cons x xs => exact popMin_cons_isSome x xs

theorem popMin_eq_none (l : List HNode) (h : popMin l = none) : l = [] := by
  cases l with
  | nil => rfl
  | cons x xs =>
    obtain ⟨m, r, hm⟩ := popMin_cons_isSome x xs
    rw [hm] at h
    exact absurd h (by simp)

theorem popMin_perm : ∀ (l : List HNode) (m : HNode) (r : List HNode),
    popMin l = some (m, r) → l.Perm (m :: r) := by
  intro l
  induction l with
  | nil =>
    intro m r h
    exact absurd h (by rw [show popMin [] = none from rfl]; simp)
  | cons x xs ih =>
    intro m r h
    rw [popMin_cons] at h
    cases hp : popMin xs with
    | none =>
      rw [hp] at h
      have h' : some (x, ([] : List HNode)) = some (m, r) := h
      have hxs : xs = [] := popMin_eq_none xs hp
      cases h'
      rw [hxs]
    | some p =>
      obtain ⟨m', r'⟩ := p
      rw [hp] at h
      have h' : (if nodeLtB m' x = true then some (m', x :: r')
          else some (x, xs)) = some (m, r) := h
      by_cases hb : nodeLtB m' x
      · rw [if_pos hb] at h'
        cases h'
        exact ((ih m r' hp).cons x).trans (List.Perm.swap m x r')
      · rw [if_neg hb] at h'
        cases h'
        exact List.Perm.refl _

theorem popMin_min : ∀ (l : List HNode) (m : HNode) (r : List HNode),
    popMin l = some (m, r) → ∀ x ∈ l, nodeLtB x m = false := by
  intro l
  induction l with
  | nil =>
    intro m r h
    exact absurd h (by rw [show popMin [] = none from rfl]; simp)
  | cons x xs ih =>
    intro m r h y hy
    rw [popMin_cons] at h
    cases hp : popMin xs with
    | none =>
      rw [hp] at h
      have h' : some (x, ([] : List HNode)) = some (m, r) := h
      have hxs : xs = [] := popMin_eq_none xs hp
      cases h'
      rw [hxs] at hy
      rcases List.mem_singleton.mp hy with rfl
      exact nodeLtB_irrefl y
    | some p =>
      obtain ⟨m', r'⟩ := p
      rw [hp] at h
      have h' : (if nodeLtB m' x = true then some (m', x :: r')
          else some (x, xs)) = some (m, r) := h
      by_cases hb : nodeLtB m' x
      · rw [if_pos hb] at h'
        cases h'
        rcases List.mem_cons.mp hy with rfl | hys
        · exact nodeLtB_asymm m y hb
        · exact ih m r' hp y hys
      · rw [if_neg hb] at h'
        cases h'
        rcases List.mem_cons.mp hy with rfl | hys
        · exact nodeLtB_irrefl y
        · have h1 := ih m' r' hp y hys
          cases hc : nodeLtB y x with
          | false => rfl
          | true =>
            exfalso
            by_cases hd : nodeLtB x m' = true
            · have := nodeLtB_trans y x m' hc hd
              rw [h1] at this
              exact absurd this (by simp)
            · have hdm : nodeLtB x m' = false := by
                cases hval : nodeLtB x m'
                · rfl
                · exact absurd hval hd
              have hb2 : nodeLtB m' x = false := by
                cases hval : nodeLtB m' x
                · rfl
                · exact absurd hval hb
              have hxm : x = m' := nodeLtB_antisymm x m' hdm hb2
              rw [hxm] at hc
              rw [h1] at hc
              exact absurd hc (by simp)

theorem popMin_length (l : List HNode) (m : HNode) (r : List HNode)
    (h : popMin l = some (m, r)) : l.length = r.length + 1 := by
  have := (popMin_perm l m r h).length_eq
  simpa using this

theorem popMin_eq_of_perm (l1 l2 : List HNode) (hp : l1.Perm l2)
    (m1 : HNode) (r1 : List HNode) (m2 : HNode) (r2 : List HNode)
    (h1 : popMin l1 = some (m1, r1)) (h2 : popMin l2 = some (m2, r2)) :
    m1 = m2 ∧ r1.Perm r2 := by
  have hm1 : m1 ∈ l1 :=
    (popMin_perm l1 m1 r1 h1).mem_iff.mpr (List.mem_cons_self _ _)
  have hm2 : m2 ∈ l2 :=
    (popMin_perm l2 m2 r2 h2).mem_iff.mpr (List.mem_cons_self _ _)
  have ha : nodeLtB m1 m2 = false :=
    popMin_min l2 m2 r2 h2 m1 (hp.mem_iff.mp hm1)
  have hb : nodeLtB m2 m1 = false :=
    popMin_min l1 m1 r1 h1 m2 (hp.mem_iff.mpr hm2)
  have hmm : m1 = m2 := nodeLtB_antisymm m1 m2 ha hb
  subst hmm
  have hperm : (m1 :: r1).Perm (m1 :: r2) :=
    ((popMin_perm l1 m1 r1 h1).symm.trans hp).trans (popMin_perm l2 m1 r2 h2)
  exact ⟨rfl, hperm.cons_inv⟩

/-! The merge loop is a function of the heap content only. -/

theorem huffmanLoopAux_succ (fuel : Nat) (heap : List HNode)
    (codes : Nat → List Bool) :
    huffmanLoopAux (fuel + 1) heap codes =
      if 1 < heap.length then
        match popMin heap with
        | none => codes
        | some (m1, r1) =>
          match popMin r1 with
          | none => codes
          | some (m2, r2) =>
            huffmanLoopAux fuel ((m1.1 + m2.1, m1.2 ++ m2.2) :: r2)
              (prependBit true m2.2 (prependBit false m1.2 codes))
      else codes := rfl

theorem huffmanLoopAux_perm :
    ∀ (fuel : Nat) (h1 h2 : List HNode) (codes : Nat → List Bool),
      h1.Perm h2 → huffmanLoopAux fuel h1 codes = huffmanLoopAux fuel h2 codes := by
  intro fuel
  induction fuel with
  | zero => intro h1 h2 codes _; rfl
  | succ n ih =>
    intro h1 h2 codes hp
    rw [huffmanLoopAux_succ, huffmanLoopAux_succ]
    have hlen : h1.length = h2.length := hp.length_eq
    by_cases hl : 1 < h1.length
    · rw [if_pos hl, if_pos (by omega)]
      obtain ⟨a1, s1, ha1⟩ := popMin_isSome h1
        (by intro hnil; rw [hnil] at hl; simp at hl)
      obtain ⟨a2, s2, ha2⟩ := popMin_isSome h2
        (by intro hnil; rw [hnil, List.length_nil] at hlen; omega)
      obtain ⟨haeq, hs⟩ := popMin_eq_of_perm h1 h2 hp a1 s1 a2 s2 ha1 ha2
      subst haeq
      have hs1len : h1.length = s1.length + 1 := popMin_length h1 a1 s1 ha1
      have hs2len : s1.length = s2.length := hs.length_eq
      obtain ⟨b1, t1, hb1⟩ := popMin_isSome s1
        (by intro hnil; rw [hnil, List.length_nil] at hs1len; omega)
      obtain ⟨b2, t2, hb2⟩ := popMin_isSome s2
        (by intro hnil; rw [hnil, List.length_nil] at hs2len; omega)
      obtain ⟨hbeq, ht⟩ := popMin_eq_of_perm s1 s2 hs b1 t1 b2 t2 hb1 hb2
      subst hbeq
      rw [ha1, ha2]
      show (match popMin s1 with
          | none => codes
          | some (m2, r2) =>
            huffmanLoopAux n ((a1.1 + m2.1, a1.2 ++ m2.2) :: r2)
              (prependBit true m2.2 (prependBit false a1.2 codes))) =
        (match popMin s2 with
          | none => codes
          | some (m2, r2) =>
            huffmanLoopAux n ((a1.1 + m2.1, a1.2 ++ m2.2) :: r2)
              (prependBit true m2.2 (prependBit false a1.2 codes)))
      rw [hb1, hb2]
      show huffmanLoopAux n ((a1.1 + b1.1, a1.2 ++ b1.2) :: t1)
          (prependBit true b1.2 (prependBit false a1.2 codes)) =
        huffmanLoopAux n ((a1.1 + b1.1, a1.2 ++ b1.2) :: t2)
          (prependBit true b1.2 (prependBit false a1.2 codes))
      exact ih _ _ _ (ht.cons _)
    · rw [if_neg hl, if_neg (by omega)]

/-- huffman with its local binding unfolded. -/
theorem huffman_eq (freqs : List (Nat × Nat)) :
    huffman freqs =
      if freqs.length = 1 then
        fun s => if s = (freqs.headD (0, 0)).1 then [false]
          else huffmanLoop (freqs.map fun p => (p.2, [p.1])) (fun _ => []) s
      else huffmanLoop (freqs.map fun p => (p.2, [p.1])) (fun _ => []) := rfl

theorem huffman_perm (l1 l2 : List (Nat × Nat)) (hp : l1.Perm l2) :
    huffman l1 = huffman l2 := by
  by_cases h1 : l1.length = 1
  · obtain ⟨p, rfl⟩ := List.length_eq_one.mp h1
    rw [List.perm_singleton.mp hp.symm]
  · rw [huffman_eq l1, huffman_eq l2, if_neg h1,
      if_neg (by rw [← hp.length_eq]; exact h1)]
    unfold huffmanLoop
    rw [show (l1.map fun p => (p.2, [p.1])).length =
        (l2.map fun p => (p.2, [p.1])).length from by
      simp [hp.length_eq]]
    exact huffmanLoopAux_perm _ _ _ _ (hp.map _)

/-! The two frequency orders seen by the pipeline. -/

theorem firstOccs_aux_mem : ∀ (l acc : List Nat) (x : Nat),
    (x ∈ l.foldl (fun acc b => if b ∈ acc then acc else acc ++ [b]) acc) ↔
      x ∈ acc ∨ x ∈ l := by
  intro l
  induction l with
  | nil => intro acc x; simp
  | cons b bs ih =>
    intro acc x
    simp only [List.foldl_cons]
    by_cases hb : b ∈ acc
    · rw [if_pos hb, ih]
      constructor
      · rintro (h | h)
        · exact Or.inl h
        · exact Or.inr (List.mem_cons_of_mem b h)
      · rintro (h | h)
        · exact Or.inl h
        · rcases List.mem_cons.mp h with rfl | h'
          · exact Or.inl hb
          · exact Or.inr h'
    · rw [if_neg hb, ih]
      simp only [List.mem_append, List.mem_singleton, List.mem_cons]
      tauto

theorem firstOccs_mem (l : List Nat) (x : Nat) :
    x ∈ firstOccs l ↔ x ∈ l := by
  unfold firstOccs
  rw [firstOccs_aux_mem]
  simp

theorem firstOccs_aux_nodup : ∀ (l acc : List Nat), acc.Nodup →
    (l.foldl (fun acc b => if b ∈ acc then acc else acc ++ [b]) acc).Nodup := by
  intro l
  induction l with
  | nil => intro acc h; exact h
  | cons b bs ih =>
    intro acc h
    simp only [List.foldl_cons]
    by_cases hb : b ∈ acc
    · rw [if_pos hb]
      exact ih acc h
    · rw [if_neg hb]
      refine ih _ ?_
      rw [List.nodup_append]
      refine ⟨h, List.nodup_singleton b, ?_⟩
      intro a ha hab
      rw [List.mem_singleton] at hab
      rw [hab] at ha
      exact hb ha

theorem firstOccs_nodup (l : List Nat) : (firstOccs l).Nodup :=
  firstOccs_aux_nodup l [] List.nodup_nil

theorem counterItems_nodup (s : List Nat) : (counterItems s).Nodup :=
  List.Nodup.map (fun _ _ h => congrArg Prod.fst h) (firstOccs_nodup s)

theorem counterItems_mem (s : List Nat) (p : Nat × Nat) :
    p ∈ counterItems s ↔ p.1 ∈ s ∧ p.2 = s.count p.1 := by
  unfold counterItems
  rw [List.mem_map]
  constructor
  · rintro ⟨b, hb, rfl⟩
    exact ⟨(firstOccs_mem s b).mp hb, rfl⟩
  · rintro ⟨h1, h2⟩
    refine ⟨p.1, (firstOccs_mem s p.1).mpr h1, ?_⟩
    rw [← h2]

theorem flatMap_four_slice : ∀ (l : List Nat) (f : Nat → List Nat),
    (∀ x, (f x).length = 4) → ∀ i < l.length,
      ((l.flatMap f).drop (4 * i)).take 4 = f (l.getD i 0) := by
  intro l f hf
  induction l with
  | nil => intro i hi; simp at hi
  | cons x xs ih =>
    intro i hi
    rw [List.flatMap_cons]
    cases i with
    | zero =>
      simp only [Nat.mul_zero, List.drop_zero]
      show (f x ++ xs.flatMap f).take 4 = f x
      rw [← hf x]
      exact List.take_left _ _
    | succ j =>
      rw [show 4 * (j + 1) = (f x).length + 4 * j from by rw [hf x]; omega,
        List.drop_append]
      exact ih j (by simpa using hi)

theorem toBytes4_foldl (n : Nat) (h : n < 4294967296) :
    (toBytes4 n).foldl (fun acc byte => acc * 256 + byte) 0 = n := by
  unfold toBytes4
  simp only [List.foldl_cons, List.foldl_nil]
  omega

theorem readCount4_header (s : List Nat) (b : Nat) (hb : b < 256)
    (hc : s.count b < 4294967296) :
    readCount4 (freqHeader s) b = s.count b := by
  unfold readCount4 freqHeader
  rw [flatMap_four_slice (List.range 256) (fun x => toBytes4 (s.count x))
    (fun x => rfl) b (by simpa using hb)]
  rw [show (List.range 256).getD b 0 = b from by
    rw [List.getD_eq_getElem?_getD, List.getElem?_eq_getElem (by simpa using hb)]
    simp [List.getElem_range]]
  exact toBytes4_foldl _ hc

theorem decompFreq_mem (fd : List Nat) (p : Nat × Nat) :
    p ∈ decompFreq fd ↔
      p.1 < 256 ∧ 0 < readCount4 fd p.1 ∧ p.2 = readCount4 fd p.1 := by
  unfold decompFreq
  rw [List.mem_filterMap]
  constructor
  · rintro ⟨a, ha, hfa⟩
    rw [List.mem_range] at ha
    by_cases h : 0 < readCount4 fd a
    · rw [if_pos h] at hfa
      cases hfa
      exact ⟨ha, h, rfl⟩
    · rw [if_neg h] at hfa
      exact absurd hfa (by simp)
  · rintro ⟨h1, h2, h3⟩
    refine ⟨p.1, List.mem_range.mpr h1, ?_⟩
    rw [if_pos h2, ← h3]

theorem decompFreq_nodup (fd : List Nat) : (decompFreq fd).Nodup := by
  refine List.Nodup.filterMap ?_ (List.nodup_range 256)
  intro a a' b hb hb'
  have ha : b.1 = a := by
    by_cases h : 0 < readCount4 fd a
    · rw [if_pos h, Option.mem_def] at hb
      cases hb
      rfl
    · rw [if_neg h] at hb
      exact absurd hb (by simp)
  have ha' : b.1 = a' := by
    by_cases h : 0 < readCount4 fd a'
    · rw [if_pos h, Option.mem_def] at hb'
      cases hb'
      rfl
    · rw [if_neg h] at hb'
      exact absurd hb' (by simp)
  rw [← ha, ← ha']

theorem freq_lists_perm (s : List Nat) (hs : ∀ x ∈ s, x < 256)
    (hlen : s.length < 4294967296) :
    (counterItems s).Perm (decompFreq (freqHeader s)) := by
  rw [List.perm_ext_iff_of_nodup (counterItems_nodup s) (decompFreq_nodup _)]
  intro p
  rw [counterItems_mem, decompFreq_mem]
  constructor
  · rintro ⟨h1, h2⟩
    have hb : p.1 < 256 := hs p.1 h1
    have hcnt : s.count p.1 < 4294967296 :=
      lt_of_le_of_lt (List.count_le_length _ _) hlen
    rw [readCount4_header s p.1 hb hcnt]
    exact ⟨hb, List.count_pos_iff.mpr h1, h2⟩
  · rintro ⟨h1, h2, h3⟩
    have hcnt : s.count p.1 < 4294967296 :=
      lt_of_le_of_lt (List.count_le_length _ _) hlen
    rw [readCount4_header s p.1 h1 hcnt] at h2 h3
    exact ⟨List.count_pos_iff.mp h2, h3⟩

/-- C5: the Huffman builder is a deterministic function of the frequency
table content alone: permuting the (symbol, frequency) list leaves the
code table unchanged, and in particular the table the decompressor
rebuilds from the stored 256 counter header (byte values in ascending
order) equals the table the compressor built from the Counter of the
serialized stream (first occurrence order), for every serialized stream
of bytes whose length keeps the four byte counters exact. -/
theorem c5_table_determinism :
    (∀ l1 l2 : List (Nat × Nat), l1.Perm l2 → huffman l1 = huffman l2) ∧
    (∀ s : List Nat, (∀ x ∈ s, x < 256) → s.length < 4294967296 →
      huffman (counterItems s) = huffman (decompFreq (freqHeader s))) :=
  ⟨huffman_perm,
   fun s hs hlen => huffman_perm _ _ (freq_lists_perm s hs hlen)⟩

/-- Witness for C5: the two frequency orders of the serialized stream of
the one byte input X produce the same code table. -/
theorem c5_witness :
    huffman [(0, 8), (88, 2)] = huffman [(88, 2), (0, 8)] ∧
      huffman (counterItems [0, 0, 0, 0, 88]) =
        huffman (decompFreq (freqHeader [0, 0, 0, 0, 88])) :=
  ⟨c5_table_determinism.1 [(0, 8), (88, 2)] [(88, 2), (0, 8)] (by decide),
   c5_table_determinism.2 [0, 0, 0, 0, 88] (by decide) (by decide)⟩

/-! Prefix free codes. -/

theorem isCodePre_refl (c : List Bool) : IsCodePre c c := by
  unfold IsCodePre
  exact List.take_length c

theorem isCodePre_cons (x y : Bool) (a b : List Bool) :
    IsCodePre (x :: a) (y :: b) ↔ x = y ∧ IsCodePre a b := by
  unfold IsCodePre
  rw [List.length_cons, List.take_succ_cons]
  constructor
  · intro h
    injection h with h1 h2
    exact ⟨h1.symm, h2⟩
  · rintro ⟨rfl, h⟩
    rw [h]

theorem isCodePre_cons_ne (x y : Bool) (a b : List Bool) (h : x ≠ y) :
    ¬ IsCodePre (x :: a) (y :: b) :=
  fun hc => h ((isCodePre_cons x y a b).mp hc).1

theorem prependBit_mem (bit : Bool) (syms : List Nat)
    (codes : Nat → List Bool) (s : Nat) (h : s ∈ syms) :
    prependBit bit syms codes s = bit :: codes s := by
  unfold prependBit
  rw [if_pos h]

theorem prependBit_not_mem (bit : Bool) (syms : List Nat)
    (codes : Nat → List Bool) (s : Nat) (h : s ∉ syms) :
    prependBit bit syms codes s = codes s := by
  unfold prependBit
  rw [if_neg h]

theorem heapSyms_cons (g : HNode) (heap : List HNode) :
    heapSyms (g :: heap) = g.2 ++ heapSyms heap :=
  List.flatMap_cons g heap _

theorem heapSyms_perm (h1 h2 : List HNode) (hp : h1.Perm h2) :
    (heapSyms h1).Perm (heapSyms h2) := by
  induction hp with
  | nil => exact List.Perm.refl _
  | cons x _ ih =>
    rw [heapSyms_cons, heapSyms_cons]
    exact ih.append_left x.2
  | swap x y l =>
    rw [heapSyms_cons, heapSyms_cons, heapSyms_cons, heapSyms_cons,
      ← List.append_assoc, ← List.append_assoc]
    exact List.Perm.append_right _ List.perm_append_comm
  | trans _ _ ih1 ih2 => exact ih1.trans ih2

theorem mem_heapSyms (heap : List HNode) (g : HNode) (s : Nat)
    (hg : g ∈ heap) (hs : s ∈ g.2) : s ∈ heapSyms heap :=
  List.mem_flatMap.mpr ⟨g, hg, hs⟩

theorem heapSyms_nil : heapSyms [] = [] := rfl

theorem huffmanLoopAux_pf :
    ∀ (fuel : Nat) (heap : List HNode) (codes : Nat → List Bool),
      fuel = heap.length →
      (∀ g ∈ heap, g.2 ≠ []) →
      (heapSyms heap).Nodup →
      (∀ g ∈ heap, 2 ≤ g.2.length → ∀ s ∈ g.2, codes s ≠ []) →
      (∀ g ∈ heap, ∀ s ∈ g.2, ∀ t ∈ g.2, s ≠ t →
        ¬ IsCodePre (codes s) (codes t)) →
      (2 ≤ (heapSyms heap).length →
        ∀ s ∈ heapSyms heap, huffmanLoopAux fuel heap codes s ≠ []) ∧
      (∀ s ∈ heapSyms heap, ∀ t ∈ heapSyms heap, s ≠ t →
        ¬ IsCodePre (huffmanLoopAux fuel heap codes s)
          (huffmanLoopAux fuel heap codes t)) := by
  intro fuel
  induction fuel with
  | zero =>
    intro heap codes hfuel h1 h2 h3 h4
    have hnil : heap = [] := List.length_eq_zero.mp hfuel.symm
    subst hnil
    constructor
    · intro hlen s hs
      rw [heapSyms_nil] at hs
      exact absurd hs (List.not_mem_nil s)
    · intro s hs
      rw [heapSyms_nil] at hs
      exact absurd hs (List.not_mem_nil s)
  | succ n ih =>
    intro heap codes hfuel h1 h2 h3 h4
    by_cases hl : 1 < heap.length
    · obtain ⟨a1, s1, ha1⟩ := popMin_isSome heap
        (by intro hnil; rw [hnil] at hl; simp at hl)
      have hperm1 : heap.Perm (a1 :: s1) := popMin_perm heap a1 s1 ha1
      have hs1len : heap.length = s1.length + 1 := popMin_length heap a1 s1 ha1
      obtain ⟨b1, t1, hb1⟩ := popMin_isSome s1
        (by intro hnil; rw [hnil, List.length_nil] at hs1len; omega)
      have hperm2 : s1.Perm (b1 :: t1) := popMin_perm s1 b1 t1 hb1
      have ht1len : s1.length = t1.length + 1 := popMin_length s1 b1 t1 hb1
      have hstep : huffmanLoopAux (n + 1) heap codes =
          huffmanLoopAux n ((a1.1 + b1.1, a1.2 ++ b1.2) :: t1)
            (prependBit true b1.2 (prependBit false a1.2 codes)) := by
        rw [huffmanLoopAux_succ, if_pos hl, ha1]
        show (match popMin s1 with
            | none => codes
            | some (m2, r2) =>
              huffmanLoopAux n ((a1.1 + m2.1, a1.2 ++ m2.2) :: r2)
                (prependBit true m2.2 (prependBit false a1.2 codes))) = _
        rw [hb1]
      have hsymsA : (heapSyms heap).Perm (a1.2 ++ (b1.2 ++ heapSyms t1)) := by
        refine (heapSyms_perm heap (a1 :: s1) hperm1).trans ?_
        rw [heapSyms_cons]
        refine List.Perm.append_left a1.2 ?_
        rw [← heapSyms_cons]
        exact heapSyms_perm s1 (b1 :: t1) hperm2
      have hsymsnew : heapSyms ((a1.1 + b1.1, a1.2 ++ b1.2) :: t1) =
          (a1.2 ++ b1.2) ++ heapSyms t1 := heapSyms_cons _ _
      have hsymsN : (heapSyms ((a1.1 + b1.1, a1.2 ++ b1.2) :: t1)).Perm
          (heapSyms heap) := by
        rw [hsymsnew, List.append_assoc]
        exact hsymsA.symm
      have hnodup2 : (a1.2 ++ (b1.2 ++ heapSyms t1)).Nodup :=
        (hsymsA.nodup_iff).mp h2
      rw [List.nodup_append] at hnodup2
      obtain ⟨nda, ndrest, disja⟩ := hnodup2
      rw [List.nodup_append] at ndrest
      obtain ⟨ndb, ndt, disjbt⟩ := ndrest
      have hmem_t1 : ∀ g ∈ t1, g ∈ heap := by
        intro g hg
        exact hperm1.mem_iff.mpr (List.mem_cons_of_mem a1
          (hperm2.mem_iff.mpr (List.mem_cons_of_mem b1 hg)))
      have ha1mem : a1 ∈ heap := hperm1.mem_iff.mpr (List.mem_cons_self _ _)
      have hb1mem : b1 ∈ heap := hperm1.mem_iff.mpr
        (List.mem_cons_of_mem a1 (hperm2.mem_iff.mpr (List.mem_cons_self _ _)))
      have hdisjab : ∀ s ∈ a1.2, s ∉ b1.2 := by
        intro s hs hsb
        exact disja hs (List.mem_append.mpr (Or.inl hsb))
      have hdisj_at : ∀ s ∈ heapSyms t1, s ∉ a1.2 := by
        intro s hs hsa
        exact disja hsa (List.mem_append.mpr (Or.inr hs))
      have hdisj_bt : ∀ s ∈ heapSyms t1, s ∉ b1.2 := by
        intro s hs hsb
        exact disjbt hsb hs
      have hc1 : ∀ s ∈ a1.2,
          prependBit true b1.2 (prependBit false a1.2 codes) s =
            false :: codes s := by
        intro s hs
        rw [prependBit_not_mem true b1.2 _ s (hdisjab s hs),
          prependBit_mem false a1.2 codes s hs]
      have hc2 : ∀ s ∈ b1.2,
          prependBit true b1.2 (prependBit false a1.2 codes) s =
            true :: codes s := by
        intro s hs
        rw [prependBit_mem true b1.2 _ s hs]
        congr 1
        exact prependBit_not_mem false a1.2 codes s (fun hsa => hdisjab s hsa hs)
      have hc3 : ∀ s, s ∉ a1.2 → s ∉ b1.2 →
          prependBit true b1.2 (prependBit false a1.2 codes) s = codes s := by
        intro s hsa hsb
        rw [prependBit_not_mem true b1.2 _ s hsb,
          prependBit_not_mem false a1.2 codes s hsa]
      have h1' : ∀ g ∈ (a1.1 + b1.1, a1.2 ++ b1.2) :: t1, g.2 ≠ [] := by
        intro g hg
        rcases List.mem_cons.mp hg with rfl | hgt
        · show a1.2 ++ b1.2 ≠ []
          intro hemp
          rcases List.append_eq_nil.mp hemp with ⟨hA, _⟩
          exact h1 a1 ha1mem hA
        · exact h1 g (hmem_t1 g hgt)
      have h2' : (heapSyms ((a1.1 + b1.1, a1.2 ++ b1.2) :: t1)).Nodup :=
        (hsymsN.nodup_iff).mpr h2
      have h3' : ∀ g ∈ (a1.1 + b1.1, a1.2 ++ b1.2) :: t1, 2 ≤ g.2.length →
          ∀ s ∈ g.2,
            prependBit true b1.2 (prependBit false a1.2 codes) s ≠ [] := by
        intro g hg hglen s hs
        rcases List.mem_cons.mp hg with rfl | hgt
        · rcases List.mem_append.mp hs with hsa | hsb
          · rw [hc1 s hsa]
            simp
          · rw [hc2 s hsb]
            simp
        · have hst1 : s ∈ heapSyms t1 := mem_heapSyms t1 g s hgt hs
          rw [hc3 s (hdisj_at s hst1) (hdisj_bt s hst1)]
          exact h3 g (hmem_t1 g hgt) hglen s hs
      have h4' : ∀ g ∈ (a1.1 + b1.1, a1.2 ++ b1.2) :: t1, ∀ s ∈ g.2,
          ∀ t ∈ g.2, s ≠ t →
            ¬ IsCodePre (prependBit true b1.2 (prependBit false a1.2 codes) s)
              (prependBit true b1.2 (prependBit false a1.2 codes) t) := by
        intro g hg s hs t ht hst
        rcases List.mem_cons.mp hg with rfl | hgt
        · rcases List.mem_append.mp hs with hsa | hsb <;>
            rcases List.mem_append.mp ht with hta | htb
          · rw [hc1 s hsa, hc1 t hta]
            intro hpre
            exact h4 a1 ha1mem s hsa t hta hst
              ((isCodePre_cons _ _ _ _).mp hpre).2
          · rw [hc1 s hsa, hc2 t htb]
            exact isCodePre_cons_ne _ _ _ _ (by simp)
          · rw [hc2 s hsb, hc1 t hta]
            exact isCodePre_cons_ne _ _ _ _ (by simp)
          · rw [hc2 s hsb, hc2 t htb]
            intro hpre
            exact h4 b1 hb1mem s hsb t htb hst
              ((isCodePre_cons _ _ _ _).mp hpre).2
        · have hst1 : s ∈ heapSyms t1 := mem_heapSyms t1 g s hgt hs
          have htt1 : t ∈ heapSyms t1 := mem_heapSyms t1 g t hgt ht
          rw [hc3 s (hdisj_at s hst1) (hdisj_bt s hst1),
            hc3 t (hdisj_at t htt1) (hdisj_bt t htt1)]
          exact h4 g (hmem_t1 g hgt) s hs t ht hst
      have hfuel' : n = ((a1.1 + b1.1, a1.2 ++ b1.2) :: t1).length := by
        rw [List.length_cons]
        omega
      obtain ⟨concl1, concl2⟩ := ih _ _ hfuel' h1' h2' h3' h4'
      rw [hstep]
      constructor
      · intro hlen2 s hs
        refine concl1 ?_ s (hsymsN.mem_iff.mpr hs)
        rw [hsymsN.length_eq]
        exact hlen2
      · intro s hs t ht hst
        exact concl2 s (hsymsN.mem_iff.mpr hs) t (hsymsN.mem_iff.mpr ht) hst
    · have hlen1 : heap.length = 1 := by omega
      obtain ⟨g, rfl⟩ := List.length_eq_one.mp hlen1
      have hloop : huffmanLoopAux (n + 1) [g] codes = codes := by
        rw [huffmanLoopAux_succ, if_neg (by simp)]
      rw [hloop]
      constructor
      · intro hlen2 s hs
        rw [heapSyms_cons, heapSyms_nil, List.append_nil] at hs hlen2
        exact h3 g (List.mem_singleton_self g) hlen2 s hs
      · intro s hs t ht hst
        rw [heapSyms_cons, heapSyms_nil, List.append_nil] at hs ht
        exact h4 g (List.mem_singleton_self g) s hs t ht hst

theorem heapSyms_map_singleton : ∀ freqs : List (Nat × Nat),
    heapSyms (freqs.map fun p => (p.2, [p.1])) = freqs.map Prod.fst := by
  intro freqs
  induction freqs with
  | nil => rfl
  | cons p ps ih =>
    rw [List.map_cons, heapSyms_cons, List.map_cons, ← ih]
    rfl

/-- C4: for every nonempty frequency list with distinct symbols and
positive frequencies, the Huffman builder assigns every symbol of the
list a non empty code, no code of one symbol is an initial segment of the
code of another, and in particular all codes are pairwise distinct. -/
theorem c4_prefix_free (freqs : List (Nat × Nat)) (hne : freqs ≠ [])
    (hpos : ∀ p ∈ freqs, 0 < p.2) (hnd : (freqs.map Prod.fst).Nodup) :
    ∀ p ∈ freqs, huffman freqs p.1 ≠ [] ∧
      ∀ q ∈ freqs, p.1 ≠ q.1 →
        ¬ IsCodePre (huffman freqs p.1) (huffman freqs q.1) ∧
          huffman freqs p.1 ≠ huffman freqs q.1 := by
  by_cases hone : freqs.length = 1
  · obtain ⟨p0, rfl⟩ := List.length_eq_one.mp hone
    intro p hp
    rcases List.mem_singleton.mp hp with rfl
    constructor
    · rw [show huffman [p] p.1 = [false] from by rw [huffman_eq]; simp]
      simp
    · intro q hq hne2
      rcases List.mem_singleton.mp hq with rfl
      exact absurd rfl hne2
  · have hlen2 : 2 ≤ freqs.length := by
      have := List.length_pos.mpr hne
      omega
    have hinv1 : ∀ g ∈ freqs.map (fun p => (p.2, [p.1])), g.2 ≠ [] := by
      intro g hg
      obtain ⟨p, _, rfl⟩ := List.mem_map.mp hg
      simp
    have hinv2 : (heapSyms (freqs.map fun p => (p.2, [p.1]))).Nodup := by
      rw [heapSyms_map_singleton]
      exact hnd
    have hinv3 : ∀ g ∈ freqs.map (fun p => (p.2, [p.1])), 2 ≤ g.2.length →
        ∀ s ∈ g.2, (fun _ => ([] : List Bool)) s ≠ [] := by
      intro g hg hglen
      obtain ⟨p, _, rfl⟩ := List.mem_map.mp hg
      simp at hglen
    have hinv4 : ∀ g ∈ freqs.map (fun p => (p.2, [p.1])), ∀ s ∈ g.2,
        ∀ t ∈ g.2, s ≠ t →
          ¬ IsCodePre ((fun _ => ([] : List Bool)) s)
            ((fun _ => ([] : List Bool)) t) := by
      intro g hg s hs t ht hst
      obtain ⟨p, _, rfl⟩ := List.mem_map.mp hg
      simp at hs ht
      rw [hs, ht] at hst
      exact absurd rfl hst
    obtain ⟨hconc1, hconc2⟩ :=
      huffmanLoopAux_pf (freqs.map fun p => (p.2, [p.1])).length
        (freqs.map fun p => (p.2, [p.1])) (fun _ => []) rfl
        hinv1 hinv2 hinv3 hinv4
    have hhuff : huffman freqs = huffmanLoopAux
        (freqs.map fun p => (p.2, [p.1])).length
        (freqs.map fun p => (p.2, [p.1])) (fun _ => []) := by
      rw [huffman_eq, if_neg hone]
      rfl
    intro p hp
    have hpmem : p.1 ∈ heapSyms (freqs.map fun p => (p.2, [p.1])) := by
      rw [heapSyms_map_singleton]
      exact List.mem_map_of_mem Prod.fst hp
    have hslen : 2 ≤ (heapSyms (freqs.map fun p => (p.2, [p.1]))).length := by
      rw [heapSyms_map_singleton, List.length_map]
      exact hlen2
    constructor
    · rw [hhuff]
      exact hconc1 hslen p.1 hpmem
    · intro q hq hne2
      have hqmem : q.1 ∈ heapSyms (freqs.map fun p => (p.2, [p.1])) := by
        rw [heapSyms_map_singleton]
        exact List.mem_map_of_mem Prod.fst hq
      constructor
      · rw [hhuff]
        exact hconc2 p.1 hpmem q.1 hqmem hne2
      · rw [hhuff]
        intro heq
        exact hconc2 p.1 hpmem q.1 hqmem hne2
          (by rw [heq]; exact isCodePre_refl _)

/-- Witness for C4 at the frequency table A:5, B:2, C:1. -/
theorem c4_witness :
    huffman [(65, 5), (66, 2), (67, 1)] 65 ≠ [] ∧
      ¬ IsCodePre (huffman [(65, 5), (66, 2), (67, 1)] 65)
        (huffman [(65, 5), (66, 2), (67, 1)] 66) := by
  have h := c4_prefix_free [(65, 5), (66, 2), (67, 1)] (by decide)
    (by decide) (by decide)
  exact ⟨(h (65, 5) (by decide)).1,
    ((h (65, 5) (by decide)).2 (66, 2) (by decide) (by decide)).1⟩

end Deflate
